import Mathlib

/-!
Verification of the Monte Carlo min/max estimator
(`numberline_montecarlo_rust`, `src/main.rs`).

The embedding models:
* the `rand_pcg::Pcg64Mcg` generator (XSL-RR 128/64 MCG) on `ℕ` with
  explicit `% 2^128` / `% 2^64` reductions, and `rand`'s `Standard`
  distribution for `f64` (`(next_u64 >> 11) * 2^-53`) as an exact
  rational in `[0, 1)`;
* `simulate_points_avx2` with the AVX2 intrinsics read as lane-wise
  operations on 4-lane vectors of exact rationals (`f64` arithmetic is
  idealized as exact `ℚ` arithmetic);
* `parallel_simulate`, with the sequential `thread_rng().next_u64()`
  seed draws abstracted as an entropy stream `ℕ → ℕ` (the i-th spawn
  reads the i-th draw), the `u64` division-by-zero panic modeled by an
  `Option` result (`none` = panic), and the final `f64` divisions
  modeled by `f64Div`, whose `none` models a non-finite result
  (`0.0 / 0.0` is NaN, `x / 0.0` is ±∞);
* `parse_args` over the process argument list.
-/

/-! ## The Pcg64Mcg generator (`rand_pcg`, XSL-RR 128/64 MCG) -/

/-- The 128-bit MCG multiplier of `rand_pcg::Pcg64Mcg`. -/
def pcgMultiplier : ℕ := 0x2360ed051fc65da44385df649fccf645

/-- Model of `u64::rotate_right` for a value `x < 2^64` and rotation `r < 64`. -/
def rotateRight64 (x r : ℕ) : ℕ :=
  ((x >>> r) ||| (x <<< (64 - r))) % 2 ^ 64

/-- The XSL-RR output function: xor the two 64-bit halves of the state and
rotate right by the top 6 bits. -/
def outputXslRr (state : ℕ) : ℕ :=
  rotateRight64 (((state >>> 64) % 2 ^ 64) ^^^ (state % 2 ^ 64)) (state >>> 122)

/-- The generator state: a 128-bit multiplicative congruential generator. -/
structure Pcg64Mcg where
  state : ℕ
deriving DecidableEq

/-- Constructor `Pcg64Mcg::new(seed as u128)`: the low bits are forced to `..11`, as
required for a maximal-period MCG. -/
def Pcg64Mcg.new (seed : ℕ) : Pcg64Mcg := ⟨seed ||| 3⟩

/-- Method `next_u64`: advance the state by one 128-bit multiply (mod `2^128`) and
emit the XSL-RR output of the new state. -/
def Pcg64Mcg.next (g : Pcg64Mcg) : ℕ × Pcg64Mcg :=
  (outputXslRr (g.state * pcgMultiplier % 2 ^ 128),
   ⟨g.state * pcgMultiplier % 2 ^ 128⟩)

/-- Model of `rng.gen::<f64>()` (the `Standard` distribution): take the top 53 bits of
`next_u64` and scale by `2^-53`; exact as a rational, always in `[0, 1)`. -/
def genF64 (g : Pcg64Mcg) : ℚ × Pcg64Mcg :=
  (((g.next.1 >>> 11 : ℕ) : ℚ) / 2 ^ 53, g.next.2)

/-- The state advance of one `next_u64` call. -/
def pcgStep (g : Pcg64Mcg) : Pcg64Mcg := g.next.2

/-- The stream of `f64` draws produced by a generator: draw `i` is the output
of the `(i+1)`-st `gen()` call. -/
def drawStream (g : Pcg64Mcg) : ℕ → ℚ :=
  fun i => (genF64 (pcgStep^[i] g)).1

/-! ## AVX2 lane model: 4-lane vectors of (idealized) doubles -/

/-- A `__m256d`: four `f64` lanes, idealized as rationals. -/
def Vec4 : Type := Fin 4 → ℚ

/-- Intrinsic `_mm256_setzero_pd`. -/
def mm256_setzero_pd : Vec4 := fun _ => 0

/-- Intrinsic `_mm256_set_pd(e3, e2, e1, e0)`: lane 0 receives the last argument. -/
def mm256_set_pd (e3 e2 e1 e0 : ℚ) : Vec4 := fun i =>
  match i with
  | 0 => e0
  | 1 => e1
  | 2 => e2
  | 3 => e3

/-- Intrinsic `_mm256_min_pd`, lane-wise minimum. -/
def mm256_min_pd (a b : Vec4) : Vec4 := fun i => min (a i) (b i)

/-- Intrinsic `_mm256_max_pd`, lane-wise maximum. -/
def mm256_max_pd (a b : Vec4) : Vec4 := fun i => max (a i) (b i)

/-- Intrinsic `_mm256_add_pd`, lane-wise addition. -/
def mm256_add_pd (a b : Vec4) : Vec4 := fun i => a i + b i

/-- Intrinsic `_mm256_storeu_pd` followed by `.iter().sum()`: the horizontal sum of the
four lanes. -/
def hsum256 (v : Vec4) : ℚ := v 0 + v 1 + v 2 + v 3

/-! ## The sampler: `simulate_points_avx2` -/

/-- The two accumulators of `struct SimulationResult` (`#[derive(Default)]`
initializes both to `0.0`). -/
structure SimulationResult where
  min_sum : ℚ
  max_sum : ℚ
deriving DecidableEq

/-- One iteration of the vectorized loop body: eight sequential `rng.gen()`
draws, packed into two 4-lane vectors, lane-wise min/max accumulated. -/
def batchStep (g : Pcg64Mcg) (minAcc maxAcc : Vec4) : Pcg64Mcg × Vec4 × Vec4 :=
  let r1 := (genF64 g).1
  let g1 := (genF64 g).2
  let r2 := (genF64 g1).1
  let g2 := (genF64 g1).2
  let r3 := (genF64 g2).1
  let g3 := (genF64 g2).2
  let r4 := (genF64 g3).1
  let g4 := (genF64 g3).2
  let r5 := (genF64 g4).1
  let g5 := (genF64 g4).2
  let r6 := (genF64 g5).1
  let g6 := (genF64 g5).2
  let r7 := (genF64 g6).1
  let g7 := (genF64 g6).2
  let r8 := (genF64 g7).1
  let g8 := (genF64 g7).2
  let vec1 := mm256_set_pd r1 r2 r3 r4
  let vec2 := mm256_set_pd r5 r6 r7 r8
  (g8, mm256_add_pd minAcc (mm256_min_pd vec1 vec2),
       mm256_add_pd maxAcc (mm256_max_pd vec1 vec2))

/-- The `for _ in 0..iterations` loop of `simulate_points_avx2`, threading the
generator and the two vector accumulators. -/
def batchLoop : ℕ → Pcg64Mcg → Vec4 → Vec4 → Pcg64Mcg × Vec4 × Vec4
  | 0, g, minAcc, maxAcc => (g, minAcc, maxAcc)
  | k + 1, g, minAcc, maxAcc =>
    batchLoop k (batchStep g minAcc maxAcc).1
      (batchStep g minAcc maxAcc).2.1 (batchStep g minAcc maxAcc).2.2

/-- The `for _ in 0..remainder` scalar loop: one pair drawn per iteration,
`min`/`max` added into the scalar accumulators. -/
def remLoop : ℕ → Pcg64Mcg → SimulationResult → Pcg64Mcg × SimulationResult
  | 0, g, result => (g, result)
  | k + 1, g, result =>
    let point1 := (genF64 g).1
    let g1 := (genF64 g).2
    let point2 := (genF64 g1).1
    let g2 := (genF64 g1).2
    remLoop k g2
      ⟨result.min_sum + min point1 point2, result.max_sum + max point1 point2⟩

/-- The body of `simulate_points_avx2` from an arbitrary generator state:
`iterations = n / 4` vector batches from zeroed accumulators, horizontal sum,
then `remainder = n % 4` scalar iterations. The first component is the final
generator state, the second the returned `SimulationResult`. -/
def simulatePointsCore (num_simulations : ℕ) (g : Pcg64Mcg) :
    Pcg64Mcg × SimulationResult :=
  let iterations := num_simulations / 4
  let remainder := num_simulations % 4
  let b := batchLoop iterations g mm256_setzero_pd mm256_setzero_pd
  remLoop remainder b.1 ⟨hsum256 b.2.1, hsum256 b.2.2⟩

/-- Function `simulate_points_avx2(num_simulations, seed)`: seed the generator with
`Pcg64Mcg::new(seed as u128)` and run the sampler body. -/
def simulate_points_avx2 (num_simulations seed : ℕ) : SimulationResult :=
  (simulatePointsCore num_simulations (Pcg64Mcg.new seed)).2

/-- The sampler entry point, named `run_batch` in the specification. -/
def run_batch (num_samples seed : ℕ) : SimulationResult :=
  simulate_points_avx2 num_samples seed

/-! ## Stream-indexed reformulation of the sampler

`runBatchStream` consumes an explicit stream of draws instead of threading a
generator state; it is proved equal to `run_batch` applied to the
seed-determined stream, which captures that `run_batch` is a pure function of
`(num_samples, seed)` alone. -/

/-- The vector loop, reading draws `u 0 .. u 7` per iteration and shifting the
stream by 8. -/
def batchLoopStream : ℕ → (ℕ → ℚ) → Vec4 → Vec4 → Vec4 × Vec4
  | 0, _, minAcc, maxAcc => (minAcc, maxAcc)
  | k + 1, u, minAcc, maxAcc =>
    batchLoopStream k (fun i => u (i + 8))
      (mm256_add_pd minAcc
        (mm256_min_pd (mm256_set_pd (u 0) (u 1) (u 2) (u 3))
                      (mm256_set_pd (u 4) (u 5) (u 6) (u 7))))
      (mm256_add_pd maxAcc
        (mm256_max_pd (mm256_set_pd (u 0) (u 1) (u 2) (u 3))
                      (mm256_set_pd (u 4) (u 5) (u 6) (u 7))))

/-- The scalar remainder loop, reading draws `u 0` and `u 1` per iteration and
shifting the stream by 2. -/
def remLoopStream : ℕ → (ℕ → ℚ) → SimulationResult → SimulationResult
  | 0, _, result => result
  | k + 1, u, result =>
    remLoopStream k (fun i => u (i + 2))
      ⟨result.min_sum + min (u 0) (u 1), result.max_sum + max (u 0) (u 1)⟩

/-- The sampler as a function of a draw stream: `n / 4` vector batches reading
draws `0 .. 8*(n/4) - 1`, then `n % 4` scalar pairs reading the following
draws. -/
def runBatchStream (num_samples : ℕ) (u : ℕ → ℚ) : SimulationResult :=
  let p := batchLoopStream (num_samples / 4) u mm256_setzero_pd mm256_setzero_pd
  remLoopStream (num_samples % 4) (fun i => u (i + 8 * (num_samples / 4)))
    ⟨hsum256 p.1, hsum256 p.2⟩

/-! ## The partitioner and aggregator: `parallel_simulate` -/

/-- The per-worker share computed inside `parallel_simulate`'s spawn loop:
`chunk_size = total / num_threads` for workers `i < num_threads - 1`, and
`chunk_size + remainder` for the last worker. -/
def workerShare (total_simulations num_threads i : ℕ) : ℕ :=
  if i = num_threads - 1 then
    total_simulations / num_threads + total_simulations % num_threads
  else
    total_simulations / num_threads

/-- The seeds handed to the workers: the spawning thread draws
`thread_rng().next_u64()` once per worker, sequentially, so worker `i`
receives the `i`-th draw of the process entropy stream. -/
def workerSeeds (num_threads : ℕ) (entropy : ℕ → ℕ) : List ℕ :=
  (List.range num_threads).map entropy

/-- Model of the final `f64` division `x / y` on finite operands: when the
divisor is zero the result is not a finite real (`0.0 / 0.0` is NaN and
`x / 0.0` with `x ≠ 0` is ±∞), modeled as `none`; otherwise the exact
rational quotient. -/
def f64Div (x y : ℚ) : Option ℚ :=
  if y = 0 then none else some (x / y)

/-- Function `parallel_simulate(total_simulations, num_threads)`, the `estimate`
operation. `entropy` abstracts the sequential `thread_rng()` draws. Rust `u64`
division and modulus panic when `num_threads = 0`; the panic is modeled as the
outer `none`. Each worker runs `simulate_points_avx2` on its share and seed;
the partial results are folded from `SimulationResult::default()` and both
sums are divided by `total_simulations as f64` with `f64Div` (whose `none`
models a non-finite `f64` result, NaN or ±∞). -/
def parallel_simulate (total_simulations num_threads : ℕ)
    (entropy : ℕ → ℕ) : Option (Option ℚ × Option ℚ) :=
  if num_threads = 0 then none
  else
    let results := (List.range num_threads).map (fun i =>
      simulate_points_avx2 (workerShare total_simulations num_threads i)
        (entropy i))
    let total_result := results.foldl
      (fun acc res => ⟨acc.min_sum + res.min_sum, acc.max_sum + res.max_sum⟩)
      (⟨0, 0⟩ : SimulationResult)
    some (f64Div total_result.min_sum (total_simulations : ℚ),
          f64Div total_result.max_sum (total_simulations : ℚ))

/-! ## The CLI parser: `parse_args` -/

/-- Rust's `str::parse::<u64>()`: an optional leading `+`, then one or more
ASCII digits, rejected on overflow past `u64::MAX`; anything else is an
error (`none`). -/
def parseU64 (s : String) : Option ℕ :=
  let chars :=
    match s.data with
    | '+' :: rest => rest
    | l => l
  if chars.isEmpty then none
  else if chars.all Char.isDigit then
    let v := chars.foldl (fun a c => a * 10 + (c.toNat - 48)) 0
    if v < 2 ^ 64 then some v else none
  else none

/-- The `while i < args.len()` loop of `parse_args`: `-s`/`--simulations` and
`-t`/`--threads` each consume the following argument when present, replacing
the current value by `parse().unwrap_or(default)`; unknown arguments are
skipped; a trailing flag with no value changes nothing. -/
def parseArgsLoop : List String → ℕ → ℕ → ℕ × ℕ
  | [], total_simulations, num_threads => (total_simulations, num_threads)
  | arg :: rest, total_simulations, num_threads =>
    if arg = "-s" ∨ arg = "--simulations" then
      match rest with
      | value :: rest2 =>
        parseArgsLoop rest2 ((parseU64 value).getD 100000000) num_threads
      | [] => (total_simulations, num_threads)
    else if arg = "-t" ∨ arg = "--threads" then
      match rest with
      | value :: rest2 =>
        parseArgsLoop rest2 total_simulations ((parseU64 value).getD 1)
      | [] => (total_simulations, num_threads)
    else parseArgsLoop rest total_simulations num_threads

/-- Function `parse_args()`: defaults `total_simulations = 100_000_000`,
`num_threads = 1`; scanning starts at `args[1]` (past the program name). -/
def parse_args (args : List String) : ℕ × ℕ :=
  parseArgsLoop (args.drop 1) 100000000 1

/-! ## Range of the generator's `f64` draws -/

lemma outputXslRr_lt (state : ℕ) : outputXslRr state < 2 ^ 64 := by
  unfold outputXslRr rotateRight64
  exact Nat.mod_lt _ (by norm_num)

lemma genF64_nonneg (g : Pcg64Mcg) : 0 ≤ (genF64 g).1 := by
  unfold genF64
  positivity

lemma genF64_lt_one (g : Pcg64Mcg) : (genF64 g).1 < 1 := by
  unfold genF64
  rw [div_lt_one (by positivity)]
  have h1 : g.next.1 >>> 11 < 2 ^ 53 := by
    have h2 : g.next.1 < 2 ^ 64 := outputXslRr_lt _
    rw [Nat.shiftRight_eq_div_pow]
    exact Nat.div_lt_of_lt_mul (h2.trans_eq (by norm_num))
  exact_mod_cast h1

/-! ## Accumulator invariants of the sampler loops -/

lemma set_pd_mem (e3 e2 e1 e0 : ℚ)
    (h3 : 0 ≤ e3 ∧ e3 < 1) (h2 : 0 ≤ e2 ∧ e2 < 1)
    (h1 : 0 ≤ e1 ∧ e1 < 1) (h0 : 0 ≤ e0 ∧ e0 < 1) (i : Fin 4) :
    0 ≤ mm256_set_pd e3 e2 e1 e0 i ∧ mm256_set_pd e3 e2 e1 e0 i < 1 := by
  fin_cases i
  · simpa [mm256_set_pd] using h0
  · simpa [mm256_set_pd] using h1
  · simpa [mm256_set_pd] using h2
  · simpa [mm256_set_pd] using h3

lemma set_pd_draws_mem (a b c d : Pcg64Mcg) (i : Fin 4) :
    0 ≤ mm256_set_pd (genF64 a).1 (genF64 b).1 (genF64 c).1 (genF64 d).1 i ∧
    mm256_set_pd (genF64 a).1 (genF64 b).1 (genF64 c).1 (genF64 d).1 i < 1 :=
  set_pd_mem _ _ _ _
    ⟨genF64_nonneg a, genF64_lt_one a⟩ ⟨genF64_nonneg b, genF64_lt_one b⟩
    ⟨genF64_nonneg c, genF64_lt_one c⟩ ⟨genF64_nonneg d, genF64_lt_one d⟩ i

lemma batchStep_bounds {c : ℚ} (g : Pcg64Mcg) {minAcc maxAcc : Vec4}
    (h : ∀ i, 0 ≤ minAcc i ∧ minAcc i ≤ maxAcc i ∧ maxAcc i ≤ c) (i : Fin 4) :
    0 ≤ (batchStep g minAcc maxAcc).2.1 i ∧
    (batchStep g minAcc maxAcc).2.1 i ≤ (batchStep g minAcc maxAcc).2.2 i ∧
    (batchStep g minAcc maxAcc).2.2 i ≤ c + 1 := by
  obtain ⟨hmn, hmm, hmx⟩ := h i
  simp only [batchStep, mm256_add_pd, mm256_min_pd, mm256_max_pd]
  refine ⟨?_, add_le_add hmm min_le_max, ?_⟩
  · exact add_nonneg hmn
      (le_min (set_pd_draws_mem _ _ _ _ i).1 (set_pd_draws_mem _ _ _ _ i).1)
  · exact add_le_add hmx
      (le_of_lt (max_lt (set_pd_draws_mem _ _ _ _ i).2 (set_pd_draws_mem _ _ _ _ i).2))

lemma batchLoop_bounds (k : ℕ) :
    ∀ (g : Pcg64Mcg) (minAcc maxAcc : Vec4) (c : ℚ),
      (∀ i, 0 ≤ minAcc i ∧ minAcc i ≤ maxAcc i ∧ maxAcc i ≤ c) →
      ∀ i, 0 ≤ (batchLoop k g minAcc maxAcc).2.1 i ∧
        (batchLoop k g minAcc maxAcc).2.1 i ≤ (batchLoop k g minAcc maxAcc).2.2 i ∧
        (batchLoop k g minAcc maxAcc).2.2 i ≤ c + k := by
  induction k with
  | zero =>
    intro g minAcc maxAcc c h i
    simpa [batchLoop] using h i
  | succ k ih =>
    intro g minAcc maxAcc c h i
    have step := fun j => batchStep_bounds (c := c) g h j
    have := ih (batchStep g minAcc maxAcc).1
      (batchStep g minAcc maxAcc).2.1 (batchStep g minAcc maxAcc).2.2
      (c + 1) step i
    simp only [batchLoop]
    refine ⟨this.1, this.2.1, this.2.2.trans_eq ?_⟩
    push_cast
    ring

lemma hsum256_bounds {minAcc maxAcc : Vec4} {c : ℚ}
    (h : ∀ i, 0 ≤ minAcc i ∧ minAcc i ≤ maxAcc i ∧ maxAcc i ≤ c) :
    0 ≤ hsum256 minAcc ∧ hsum256 minAcc ≤ hsum256 maxAcc ∧
      hsum256 maxAcc ≤ 4 * c := by
  have h0 := h 0
  have h1 := h 1
  have h2 := h 2
  have h3 := h 3
  unfold hsum256
  refine ⟨by linarith [h0.1, h1.1, h2.1, h3.1],
          by linarith [h0.2.1, h1.2.1, h2.2.1, h3.2.1],
          by linarith [h0.2.2, h1.2.2, h2.2.2, h3.2.2]⟩

lemma remLoop_bounds (k : ℕ) :
    ∀ (g : Pcg64Mcg) (result : SimulationResult) (c : ℚ),
      0 ≤ result.min_sum → result.min_sum ≤ result.max_sum →
      result.max_sum ≤ c →
      0 ≤ (remLoop k g result).2.min_sum ∧
        (remLoop k g result).2.min_sum ≤ (remLoop k g result).2.max_sum ∧
        (remLoop k g result).2.max_sum ≤ c + k := by
  induction k with
  | zero =>
    intro g result c h1 h2 h3
    simp only [remLoop]
    exact ⟨h1, h2, by push_cast; linarith⟩
  | succ k ih =>
    intro g result c h1 h2 h3
    simp only [remLoop]
    have p1 := And.intro (genF64_nonneg g) (genF64_lt_one g)
    have p2 := And.intro (genF64_nonneg (genF64 g).2) (genF64_lt_one (genF64 g).2)
    have := ih (genF64 (genF64 g).2).2
      ⟨result.min_sum + min (genF64 g).1 (genF64 (genF64 g).2).1,
       result.max_sum + max (genF64 g).1 (genF64 (genF64 g).2).1⟩
      (c + 1)
      (add_nonneg h1 (le_min p1.1 p2.1))
      (add_le_add h2 min_le_max)
      (add_le_add h3 (le_of_lt (max_lt p1.2 p2.2)))
    refine ⟨this.1, this.2.1, this.2.2.trans_eq ?_⟩
    push_cast
    ring

/-- Core range fact about the sampler: both accumulators are nonnegative, the
min-sum never exceeds the max-sum, and the max-sum never exceeds the sample
count. -/
lemma simulate_points_avx2_bounds (n seed : ℕ) :
    0 ≤ (simulate_points_avx2 n seed).min_sum ∧
    (simulate_points_avx2 n seed).min_sum ≤ (simulate_points_avx2 n seed).max_sum ∧
    (simulate_points_avx2 n seed).max_sum ≤ (n : ℚ) := by
  unfold simulate_points_avx2 simulatePointsCore
  have hb := batchLoop_bounds (n / 4) (Pcg64Mcg.new seed)
    mm256_setzero_pd mm256_setzero_pd 0
    (fun i => by simp [mm256_setzero_pd])
  have hh := hsum256_bounds hb
  have hr := remLoop_bounds (n % 4)
    (batchLoop (n / 4) (Pcg64Mcg.new seed) mm256_setzero_pd mm256_setzero_pd).1
    ⟨hsum256 (batchLoop (n / 4) (Pcg64Mcg.new seed) mm256_setzero_pd mm256_setzero_pd).2.1,
     hsum256 (batchLoop (n / 4) (Pcg64Mcg.new seed) mm256_setzero_pd mm256_setzero_pd).2.2⟩
    (4 * (0 + (n / 4 : ℕ))) hh.1 hh.2.1 hh.2.2
  refine ⟨hr.1, hr.2.1, hr.2.2.trans ?_⟩
  have hcast : 4 * ((n / 4 : ℕ) : ℚ) + ((n % 4 : ℕ) : ℚ) = (n : ℚ) := by
    exact_mod_cast Nat.div_add_mod n 4
  linarith

/-! ## Generator-state accounting: draws consumed by the loops -/

lemma batchStep_state (g : Pcg64Mcg) (minAcc maxAcc : Vec4) :
    (batchStep g minAcc maxAcc).1 = pcgStep^[8] g := rfl

lemma batchLoop_state (k : ℕ) :
    ∀ (g : Pcg64Mcg) (minAcc maxAcc : Vec4),
      (batchLoop k g minAcc maxAcc).1 = pcgStep^[8 * k] g := by
  induction k with
  | zero => intro g minAcc maxAcc; rfl
  | succ k ih =>
    intro g minAcc maxAcc
    simp only [batchLoop]
    rw [ih, batchStep_state, ← Function.iterate_add_apply]
    congr 1

lemma remLoop_state (k : ℕ) :
    ∀ (g : Pcg64Mcg) (result : SimulationResult),
      (remLoop k g result).1 = pcgStep^[2 * k] g := by
  induction k with
  | zero => intro g result; rfl
  | succ k ih =>
    intro g result
    simp only [remLoop]
    rw [ih]
    have hstep : (genF64 (genF64 g).2).2 = pcgStep^[2] g := rfl
    rw [hstep, ← Function.iterate_add_apply]
    congr 1

/-! ## Partitioning and aggregation lemmas -/

lemma workerShare_sum (total n : ℕ) (h : 1 ≤ n) :
    ((List.range n).map (workerShare total n)).sum = total := by
  obtain ⟨m, rfl⟩ : ∃ m, n = m + 1 := ⟨n - 1, by omega⟩
  rw [List.range_succ, List.map_append, List.sum_append]
  have hconst : (List.range m).map (workerShare total (m + 1)) =
      (List.range m).map (fun _ => total / (m + 1)) := by
    apply List.map_congr_left
    intro a ha
    have ham : a < m := List.mem_range.mp ha
    unfold workerShare
    rw [if_neg (by omega)]
  rw [hconst, List.map_const', List.sum_replicate, smul_eq_mul,
    List.length_range]
  simp only [List.map_cons, List.map_nil, List.sum_cons, List.sum_nil,
    add_zero]
  unfold workerShare
  rw [if_pos (by omega)]
  have hdm : (m + 1) * (total / (m + 1)) + total % (m + 1) = total :=
    Nat.div_add_mod total (m + 1)
  have hre : m * (total / (m + 1)) + (total / (m + 1) + total % (m + 1)) =
      (m + 1) * (total / (m + 1)) + total % (m + 1) := by ring
  rw [hre, hdm]

lemma workerShare_sum_cast (total n : ℕ) (h : 1 ≤ n) :
    ((List.range n).map (fun i => ((workerShare total n i : ℕ) : ℚ))).sum
      = (total : ℚ) := by
  have hs := workerShare_sum total n h
  calc ((List.range n).map (fun i => ((workerShare total n i : ℕ) : ℚ))).sum
      = ((((List.range n).map (workerShare total n)).sum : ℕ) : ℚ) := by
        rw [Nat.cast_list_sum, List.map_map]
        rfl
    _ = (total : ℚ) := by rw [hs]

lemma foldl_addResult (l : List SimulationResult) :
    ∀ a : SimulationResult,
      l.foldl (fun acc res =>
          (⟨acc.min_sum + res.min_sum, acc.max_sum + res.max_sum⟩ :
            SimulationResult)) a =
        ⟨a.min_sum + (l.map SimulationResult.min_sum).sum,
         a.max_sum + (l.map SimulationResult.max_sum).sum⟩ := by
  induction l with
  | nil => intro a; simp
  | cons x xs ih =>
    intro a
    simp only [List.foldl_cons, List.map_cons, List.sum_cons]
    rw [ih]
    congr 1 <;> ring

lemma simulate_points_avx2_zero (seed : ℕ) :
    simulate_points_avx2 0 seed = ⟨0, 0⟩ := by
  simp [simulate_points_avx2, simulatePointsCore, batchLoop, remLoop,
    hsum256, mm256_setzero_pd]

/-! ## The sampler as a pure function of the seed-determined draw stream -/

lemma drawStream_shift (g : Pcg64Mcg) (m : ℕ) :
    drawStream (pcgStep^[m] g) = fun i => drawStream g (i + m) := by
  funext i
  unfold drawStream
  rw [← Function.iterate_add_apply]

lemma batchLoop_eq_stream (k : ℕ) :
    ∀ (g : Pcg64Mcg) (minAcc maxAcc : Vec4),
      (batchLoop k g minAcc maxAcc).2 =
        batchLoopStream k (drawStream g) minAcc maxAcc := by
  induction k with
  | zero => intro g minAcc maxAcc; rfl
  | succ k ih =>
    intro g minAcc maxAcc
    simp only [batchLoop, batchLoopStream]
    rw [ih, batchStep_state, drawStream_shift]
    rfl

lemma remLoop_eq_stream (k : ℕ) :
    ∀ (g : Pcg64Mcg) (result : SimulationResult),
      (remLoop k g result).2 = remLoopStream k (drawStream g) result := by
  induction k with
  | zero => intro g result; rfl
  | succ k ih =>
    intro g result
    simp only [remLoop, remLoopStream]
    have hstep : (genF64 (genF64 g).2).2 = pcgStep^[2] g := rfl
    rw [hstep, ih, drawStream_shift]
    rfl

/-! ## Claims -/

/-- Claim C1: for every `total_simulations` and every `num_threads ≥ 1`, the
partitioner assigns `chunk = total / num_threads` samples to each of the
workers `0 .. num_threads - 2` and `chunk + total % num_threads` to the last
worker, and the per-worker counts sum to `total_simulations` exactly. -/
theorem partition_counts_exact (total_simulations num_threads : ℕ)
    (h : 1 ≤ num_threads) :
    ((List.range num_threads).map
        (workerShare total_simulations num_threads)).sum = total_simulations ∧
    (∀ i, i < num_threads - 1 →
      workerShare total_simulations num_threads i =
        total_simulations / num_threads) ∧
    workerShare total_simulations num_threads (num_threads - 1) =
      total_simulations / num_threads + total_simulations % num_threads := by
  refine ⟨workerShare_sum _ _ h, ?_, ?_⟩
  · intro i hi
    unfold workerShare
    rw [if_neg (by omega)]
  · unfold workerShare
    rw [if_pos rfl]

/-- Witness for C1 at `total_simulations = 10`, `num_threads = 3`: shares are
`3, 3, 4`, summing to `10`. -/
theorem partition_counts_exact_witness :
    1 ≤ 3 ∧
    (((List.range 3).map (workerShare 10 3)).sum = 10 ∧
     (∀ i, i < 3 - 1 → workerShare 10 3 i = 10 / 3) ∧
     workerShare 10 3 (3 - 1) = 10 / 3 + 10 % 3) :=
  ⟨by decide, partition_counts_exact 10 3 (by decide)⟩

/-- Claim C2 (the code panics instead): `parse_args` accepts `-t 0` (the
string `"0"` parses as a valid `u64`), and `parallel_simulate` then evaluates
`total_simulations / 0`, a `u64` division by zero that panics (`none`); no
validation rejects the configuration before workers are spawned. -/
theorem zero_threads_panic :
    parse_args (["prog", "-t", "0"]) = (100000000, 0) ∧
    parallel_simulate 100000000 0 (fun _ => 0) = none := by
  exact ⟨by decide, rfl⟩

/-- Claim C3: for every `num_samples` and every seed, `run_batch` returns a
result with `0 ≤ min_sum ≤ max_sum ≤ num_samples`. -/
theorem run_batch_in_range (num_samples seed : ℕ) :
    0 ≤ (run_batch num_samples seed).min_sum ∧
    (run_batch num_samples seed).min_sum ≤ (run_batch num_samples seed).max_sum ∧
    (run_batch num_samples seed).max_sum ≤ (num_samples : ℚ) :=
  simulate_points_avx2_bounds num_samples seed

/-- Counterexample to claim C4 as stated: the claim covers
`total_simulations = 0`, but there (with one thread) the code divides `0.0`
by `0.0`, producing NaN in both components — neither returned scalar is a
finite value, so neither lies in `[0, 1]` and the comparison
`expected_min ≤ expected_max` fails on the real program. -/
theorem estimate_nan_at_zero_total :
    parallel_simulate 0 1 (fun _ => 0) = some (none, none) ∧
    ¬ ∃ p : ℚ × ℚ, parallel_simulate 0 1 (fun _ => 0) =
        some (some p.1, some p.2) ∧ 0 ≤ p.1 ∧ p.1 ≤ p.2 ∧ p.2 ≤ 1 := by
  have h : parallel_simulate 0 1 (fun _ => 0) = some (none, none) := by decide
  refine ⟨h, ?_⟩
  rintro ⟨p, hp, -⟩
  rw [h] at hp
  simp at hp

/-- Claim C4 (amended): for every `total_simulations ≥ 1`, every
`num_threads ≥ 1` and every entropy stream, `parallel_simulate` returns a
pair of finite scalars with `0 ≤ expected_min ≤ expected_max ≤ 1`; the
restriction `total_simulations ≥ 1` excludes the `0.0 / 0.0` NaN output at
`total_simulations = 0`. -/
theorem estimate_in_range (total_simulations num_threads : ℕ)
    (entropy : ℕ → ℕ) (htot : 1 ≤ total_simulations) (h : 1 ≤ num_threads) :
    ∃ p : ℚ × ℚ, parallel_simulate total_simulations num_threads entropy =
        some (some p.1, some p.2) ∧
      0 ≤ p.1 ∧ p.1 ≤ p.2 ∧ p.2 ≤ 1 := by
  have hne : num_threads ≠ 0 := by omega
  have hposq : (0 : ℚ) < (total_simulations : ℚ) := by exact_mod_cast htot
  simp only [parallel_simulate, if_neg hne]
  rw [foldl_addResult]
  set l := (List.range num_threads).map (fun i =>
    simulate_points_avx2 (workerShare total_simulations num_threads i)
      (entropy i)) with hl
  have hSmin_nonneg : 0 ≤ (l.map SimulationResult.min_sum).sum := by
    apply List.sum_nonneg
    intro x hx
    obtain ⟨r, hr, rfl⟩ := List.mem_map.mp hx
    obtain ⟨i, hi, rfl⟩ := List.mem_map.mp hr
    exact (simulate_points_avx2_bounds _ _).1
  have hSminmax : (l.map SimulationResult.min_sum).sum ≤
      (l.map SimulationResult.max_sum).sum := by
    apply List.sum_le_sum
    intro r hr
    obtain ⟨i, hi, rfl⟩ := List.mem_map.mp hr
    exact (simulate_points_avx2_bounds _ _).2.1
  have hSmax_total : (l.map SimulationResult.max_sum).sum ≤
      (total_simulations : ℚ) := by
    rw [hl, List.map_map]
    calc ((List.range num_threads).map (SimulationResult.max_sum ∘ fun i =>
            simulate_points_avx2 (workerShare total_simulations num_threads i)
              (entropy i))).sum
        ≤ ((List.range num_threads).map (fun i =>
            ((workerShare total_simulations num_threads i : ℕ) : ℚ))).sum := by
          apply List.sum_le_sum
          intro i hi
          exact (simulate_points_avx2_bounds _ _).2.2
      _ = (total_simulations : ℚ) := workerShare_sum_cast _ _ h
  have hdiv : ∀ x : ℚ, f64Div x (total_simulations : ℚ) =
      some (x / (total_simulations : ℚ)) := by
    intro x
    unfold f64Div
    rw [if_neg (ne_of_gt hposq)]
  rw [hdiv, hdiv]
  refine ⟨((0 + (l.map SimulationResult.min_sum).sum) / (total_simulations : ℚ),
           (0 + (l.map SimulationResult.max_sum).sum) / (total_simulations : ℚ)),
    rfl, ?_, ?_, ?_⟩
  · exact div_nonneg (by simpa using hSmin_nonneg) (by positivity)
  · simp only
    gcongr
  · simp only
    rw [div_le_one hposq]
    simpa using hSmax_total

/-- Witness for the amended C4 at `total_simulations = 4`,
`num_threads = 1`, constant entropy. -/
theorem estimate_in_range_witness :
    1 ≤ 4 ∧ 1 ≤ 1 ∧
    ∃ p : ℚ × ℚ, parallel_simulate 4 1 (fun _ => 0) = some (some p.1, some p.2) ∧
      0 ≤ p.1 ∧ p.1 ≤ p.2 ∧ p.2 ≤ 1 :=
  ⟨by decide, by decide, estimate_in_range 4 1 (fun _ => 0) (by decide) (by decide)⟩

/-- Claim C5: for `num_samples = 0` and every seed, `run_batch` returns
exactly `{ min_sum := 0, max_sum := 0 }`. -/
theorem run_batch_zero (seed : ℕ) :
    run_batch 0 seed = ⟨0, 0⟩ :=
  simulate_points_avx2_zero seed

/-- Counterexample to claim C6 as stated: with `num_threads = 2` and an
entropy source that returns `0` twice in a row, both workers receive seed `0`;
nothing in the code checks or enforces distinctness of the drawn seeds. -/
theorem worker_seeds_can_collide :
    2 ≤ 2 ∧ ¬ (workerSeeds 2 (fun _ => 0)).Pairwise (· ≠ ·) := by
  refine ⟨le_refl 2, ?_⟩
  decide

/-- Claim C6 (amended): each worker receives one fresh sequential draw from
the process entropy source (worker `i` the `i`-th draw), and the assigned
seeds are pairwise distinct whenever the entropy draws used are pairwise
distinct; the code itself performs no distinctness check. -/
theorem worker_seeds_distinct (num_threads : ℕ) (entropy : ℕ → ℕ)
    (h : ∀ i j, i < num_threads → j < num_threads → i ≠ j →
      entropy i ≠ entropy j) :
    (workerSeeds num_threads entropy).length = num_threads ∧
    (workerSeeds num_threads entropy).Pairwise (· ≠ ·) := by
  constructor
  · simp [workerSeeds]
  · unfold workerSeeds
    rw [List.pairwise_map]
    refine (List.pairwise_lt_range num_threads).imp_of_mem ?_
    intro a b ha hb hab
    exact h a b (List.mem_range.mp ha) (List.mem_range.mp hb) (by omega)

/-- Witness for the amended C6 at `num_threads = 2` with the identity entropy
stream. -/
theorem worker_seeds_distinct_witness :
    (workerSeeds 2 (fun i => i)).length = 2 ∧
    (workerSeeds 2 (fun i => i)).Pairwise (· ≠ ·) :=
  worker_seeds_distinct 2 (fun i => i) (fun _ _ _ _ hij => hij)

/-- Counterexample to claim C8 as stated: a non-numeric `-s` value (`"abc"`)
and an out-of-range `-t` value (`2^64`, past `u64::MAX`) are both silently
replaced by the defaults `(100000000, 1)`; `parse_args` has no error result
at all, so nothing is surfaced to the caller. -/
theorem args_silently_defaulted :
    parseU64 ("abc") = none ∧
    parseU64 ("18446744073709551616") = none ∧
    parse_args (["prog", "-s", "abc"]) = (100000000, 1) ∧
    parse_args (["prog", "-t", "18446744073709551616"]) = (100000000, 1) := by
  refine ⟨?_, ?_, ?_, ?_⟩ <;> decide

/-- Claim C8 (amended): any externally supplied `-s`/`-t` value that fails
`u64` parsing (non-numeric or out of range) is silently replaced by that
parameter's default (`100_000_000` simulations, `1` thread) rather than
rejected; no configuration error is reported. -/
theorem nonnumeric_args_replaced_by_defaults (s t : String)
    (hs : parseU64 s = none) (ht : parseU64 t = none) :
    parse_args (["prog", "-s", s, "-t", t]) = (100000000, 1) := by
  simp [parse_args, parseArgsLoop, hs, ht]

/-- Witness for the amended C8 at `-s abc -t 12x`. -/
theorem nonnumeric_args_replaced_by_defaults_witness :
    parseU64 ("abc") = none ∧ parseU64 ("12x") = none ∧
    parse_args (["prog", "-s", "abc", "-t", "12x"]) = (100000000, 1) :=
  ⟨by decide, by decide,
    nonnumeric_args_replaced_by_defaults ("abc") ("12x") (by decide) (by decide)⟩

/-- Claim C9: `run_batch` is deterministic and local: its result coincides
with a pure function of `num_samples` and the draw stream determined by the
seed alone (the generator is initialized from the seed and threaded through
the call, and nothing else influences the result), so two invocations with
the same `(num_samples, seed)` return identical values. -/
theorem run_batch_deterministic (num_samples seed : ℕ) :
    run_batch num_samples seed =
      runBatchStream num_samples (drawStream (Pcg64Mcg.new seed)) := by
  simp only [run_batch, simulate_points_avx2, simulatePointsCore,
    runBatchStream]
  rw [remLoop_eq_stream, batchLoop_eq_stream, batchLoop_state,
    drawStream_shift]

/-- Claim C10: the sampler consumes exactly `2 * num_samples` draws from its
generator: each of the `num_samples / 4` full batches advances the generator
by 8 `next_u64` calls, each of the `num_samples % 4 < 4` remainder iterations
advances it by 2, and the final generator state of the whole run is the
initial state advanced `2 * num_samples` times. -/
theorem sampler_draw_count (num_samples : ℕ) (g : Pcg64Mcg) :
    (∀ minAcc maxAcc,
      (batchLoop (num_samples / 4) g minAcc maxAcc).1 =
        pcgStep^[8 * (num_samples / 4)] g) ∧
    (∀ result,
      (remLoop (num_samples % 4) g result).1 =
        pcgStep^[2 * (num_samples % 4)] g) ∧
    (simulatePointsCore num_samples g).1 = pcgStep^[2 * num_samples] g ∧
    num_samples % 4 < 4 := by
  refine ⟨fun minAcc maxAcc => batchLoop_state _ g minAcc maxAcc,
    fun result => remLoop_state _ g result, ?_, by omega⟩
  simp only [simulatePointsCore]
  rw [remLoop_state, batchLoop_state, ← Function.iterate_add_apply]
  congr 1
  omega
